import Mathlib

/-!
Verification development for the `librender` tile-based software rasterizer
(`src/software/librender/RenderContext.h`).  The repository provides the class
header; the member-function bodies live in a translation unit that is not part
of the source tree, so those operations are modelled from the design
specification (each such definition carries a doc comment saying so).  Machine
floats are modelled by `ℚ`, machine `int` by `ℤ`, pointers by indices/handles.
-/

namespace librender

/-- A clip-space position: the four floats `(x, y, z, w)` written by a vertex
shader. -/
structure Vec4 where
  x : ℚ
  y : ℚ
  z : ℚ
  w : ℚ
deriving DecidableEq

/-- A linear functional `a·x + b·y + c·z + d·w` on clip space.  The six
frustum planes, and the arbitrary test functionals used in proofs, are all of
this shape. -/
structure LinForm where
  a : ℚ
  b : ℚ
  c : ℚ
  d : ℚ

/-- Evaluate a linear functional at a clip-space point. -/
def LinForm.eval (g : LinForm) (v : Vec4) : ℚ :=
  g.a * v.x + g.b * v.y + g.c * v.z + g.d * v.w

/-- Modelled from the spec (§4.3 pass 2, glossary): the six frustum planes
`|x| ≤ w`, `|y| ≤ w`, `0 ≤ z ≤ w`, written as functionals that are
nonnegative exactly on the inside half-space.  The clipping code
(`RenderContext::clipOne`/`clipTwo` bodies) is not in `src/`. -/
def frustumPlanes : List LinForm :=
  [⟨-1, 0, 0, 1⟩, ⟨1, 0, 0, 1⟩, ⟨0, -1, 0, 1⟩, ⟨0, 1, 0, 1⟩, ⟨0, 0, 1, 0⟩, ⟨0, 0, -1, 1⟩]

/-- A vertex is inside the view frustum (glossary: `|x|≤w, |y|≤w, 0≤z≤w`). -/
def insideFrustum (v : Vec4) : Prop :=
  -v.w ≤ v.x ∧ v.x ≤ v.w ∧ -v.w ≤ v.y ∧ v.y ≤ v.w ∧ 0 ≤ v.z ∧ v.z ≤ v.w

instance (v : Vec4) : Decidable (insideFrustum v) := by
  unfold insideFrustum; infer_instance

/-- Modelled from the spec (§4.3 pass 2 step 2): classify a vertex against the
six frustum planes as a bitmask; a bit is set when the vertex is strictly
outside the corresponding plane.  The body of `RenderContext::setUpTriangle`
is not in `src/`. -/
def outcodeMask (v : Vec4) : ℕ :=
  (if v.w < v.x then 1 else 0) + (if v.x < -v.w then 2 else 0) +
  (if v.w < v.y then 4 else 0) + (if v.y < -v.w then 8 else 0) +
  (if v.z < 0 then 16 else 0) + (if v.w < v.z then 32 else 0)

/-- Linear interpolation between two clip-space points. -/
def lerpV (t : ℚ) (s e : Vec4) : Vec4 :=
  ⟨s.x + t * (e.x - s.x), s.y + t * (e.y - s.y),
   s.z + t * (e.z - s.z), s.w + t * (e.w - s.w)⟩

/-- Intersection of the segment `s e` with the zero set of plane functional
`g`, by the standard Sutherland–Hodgman parameter `t = g(s) / (g(s) - g(e))`. -/
def intersectPlane (g : LinForm) (s e : Vec4) : Vec4 :=
  lerpV (g.eval s / (g.eval s - g.eval e)) s e

/-- The points a single Sutherland–Hodgman edge `(s, e)` contributes to the
output polygon when clipping against plane `g`: the endpoint `e` when it is
inside, preceded by the crossing point when the edge crosses the plane. -/
def edgeBatch (g : LinForm) (se : Vec4 × Vec4) : List Vec4 :=
  if 0 ≤ g.eval se.2 then
    if 0 ≤ g.eval se.1 then [se.2] else [intersectPlane g se.1 se.2, se.2]
  else
    if 0 ≤ g.eval se.1 then [intersectPlane g se.1 se.2] else []

/-- The directed edge cycle `(p₀,p₁), (p₁,p₂), …, (pₙ₋₁,p₀)` of a polygon:
auxiliary walker carrying the first vertex to close the cycle. -/
def edgesFrom (first : Vec4) : Vec4 → List Vec4 → List (Vec4 × Vec4)
  | cur, [] => [(cur, first)]
  | cur, nxt :: rest => (cur, nxt) :: edgesFrom first nxt rest

/-- The directed edge cycle of a polygon (empty for the empty polygon). -/
def polyEdges : List Vec4 → List (Vec4 × Vec4)
  | [] => []
  | p :: rest => edgesFrom p p rest

/-- Modelled from the spec (§4.3 pass 2 step 5): one Sutherland–Hodgman pass,
clipping a polygon against a single plane, in homogeneous clip space.
Varyings are interpolated with the same parameter `t` and do not influence
any control flow, so they are not carried here. -/
def clipPlane (g : LinForm) (poly : List Vec4) : List Vec4 :=
  ((polyEdges poly).map (edgeBatch g)).flatten

/-- Modelled from the spec (§4.3 pass 2 step 5): clip a polygon against the
six frustum planes, plane by plane. -/
def clipFrustum (poly : List Vec4) : List Vec4 :=
  frustumPlanes.foldl (fun p g => clipPlane g p) poly

/-- Modelled from the spec (§4.3 pass 2 step 5): re-fan the clip output
polygon `a :: rest` into the triangles `(a, rᵢ, rᵢ₊₁)`. -/
def fanTriangles (poly : List Vec4) : List (Vec4 × Vec4 × Vec4) :=
  match poly with
  | [] => []
  | a :: rest => (rest.zip rest.tail).map fun pr => (a, pr.1, pr.2)

/-- The inside/outside sign of a vertex with respect to functional `g`
(`true` = on or inside the plane). -/
def signBit (g : LinForm) (v : Vec4) : Bool :=
  decide (0 ≤ g.eval v)

/-- Sign list of a polygon with respect to a functional. -/
def signList (g : LinForm) (l : List Vec4) : List Bool :=
  l.map (signBit g)

/-- Number of adjacent sign changes in a list of Booleans. -/
def chg : List Bool → ℕ
  | [] => 0
  | [_] => 0
  | a :: b :: t => (if a = b then 0 else 1) + chg (b :: t)

/-- Number of cyclically-adjacent sign changes (the list closed into a cycle). -/
def cchg : List Bool → ℕ
  | [] => 0
  | h :: t => chg ((h :: t) ++ [h])

/-- A polygon is in convex position (in the discrete, sign-pattern sense):
every linear functional changes sign at most twice around the vertex cycle.
This is the invariant Sutherland–Hodgman clipping preserves. -/
def ConvexCycle (P : List Vec4) : Prop :=
  ∀ g : LinForm, cchg (signList g P) ≤ 2

/-- The per-triangle record placed into tile bins (`RenderContext::Triangle`,
RenderContext.h lines 79–90).  Floats are `ℚ`, the `int` fields are `ℤ`, the
`const DrawState *command` pointer is modelled by the index of the owning
draw in the draw queue, and the `float *params` pointer by the block it
points at. -/
structure Triangle where
  sequenceNumber : ℤ
  command : ℕ
  x0 : ℚ
  y0 : ℚ
  z0 : ℚ
  x1 : ℚ
  y1 : ℚ
  z1 : ℚ
  x2 : ℚ
  y2 : ℚ
  z2 : ℚ
  x0Rast : ℤ
  y0Rast : ℤ
  x1Rast : ℤ
  y1Rast : ℤ
  x2Rast : ℤ
  y2Rast : ℤ
  params : List ℚ
deriving DecidableEq

/-- The comparison `Triangle::operator>` (RenderContext.h lines 86–89): it returns
`sequenceNumber > tri.sequenceNumber`. -/
def Triangle.gtOp (a tri : Triangle) : Bool :=
  decide (a.sequenceNumber > tri.sequenceNumber)

/-- Modelled from the spec (§3): the texture table of a draw state is a
“fixed-size table indexed by slot”.  Its defining header (`DrawState.h`) is
not in `src/`, so the slot count is a model constant. -/
def MAX_TEXTURES : ℕ := 4

/-- Modelled from the spec (§3 DrawState): the snapshot of bound state.  The
vertex shader is modelled as a function from one raw vertex to a clip-space
position, the pixel shader as an opaque handle (pixel shading is a parameter
of the rendering theorems), buffers and the uniform block as lists, and the
texture table as a list of texture handles.  Flag names follow the header. -/
structure DrawState where
  vertexShader : List ℚ → Vec4
  pixelShader : ℕ
  vertices : List (List ℚ)
  indices : List ℕ
  uniforms : List ℚ
  fTextures : List ℕ
  fEnableZBuffer : Bool
  fEnableBlend : Bool

/-- The draw state a fresh context starts with: nothing bound. -/
def initialDrawState : DrawState :=
  { vertexShader := fun _ => ⟨0, 0, 0, 0⟩, pixelShader := 0, vertices := [],
    indices := [], uniforms := [], fTextures := List.replicate MAX_TEXTURES 0,
    fEnableZBuffer := false, fEnableBlend := false }

/-- The observable state of a `RenderContext` (the private members of
RenderContext.h lines 110–122).  `fRenderTarget` is modelled by the bound
target's width and height; `fTiles` by the grid of tile bins. -/
structure RenderContextState where
  fRenderTarget : Option (ℕ × ℕ)
  fTileColumns : ℕ
  fTileRows : ℕ
  fTiles : List (List Triangle)
  fCurrentState : DrawState
  fDrawQueue : List DrawState
  fBaseSequenceNumber : ℤ
  fClearColor : ℕ
  fWireframeMode : Bool
  workingMemSize : ℕ

/-- The constructor `RenderContext(unsigned int workingMemSize = 0x400000)`
(RenderContext.h line 36) together with the member initializers of lines
110–122, in particular `fClearColor = 0xff000000` (line 121). -/
def RenderContext.construct (workingMemSize : ℕ := 0x400000) : RenderContextState :=
  { fRenderTarget := none, fTileColumns := 0, fTileRows := 0, fTiles := [],
    fCurrentState := initialDrawState, fDrawQueue := [], fBaseSequenceNumber := 0,
    fClearColor := 0xff000000, fWireframeMode := false,
    workingMemSize := workingMemSize }

/-- The bind/enable mutators of `RenderContext` (header lines 42–68).  The
one-line bodies of `bindTexture`, `enableZBuffer` and `enableBlend` are in
the header; `bindShader`, `bindGeometry` and `bindUniforms` are modelled
from spec §4.4 (“mutate `fCurrentState` in place”). -/
inductive BindOp where
  | bindShader (vertexShader : List ℚ → Vec4) (pixelShader : ℕ)
  | bindGeometry (vertices : List (List ℚ)) (indices : List ℕ)
  | bindUniforms (uniforms : List ℚ)
  | bindTexture (textureIndex : ℕ) (texture : ℕ)
  | enableZBuffer (enabled : Bool)
  | enableBlend (enabled : Bool)

/-- Apply one bind/enable call to the context. -/
def applyBind (ctx : RenderContextState) (op : BindOp) : RenderContextState :=
  match op with
  | .bindShader vs ps =>
    { ctx with fCurrentState := { ctx.fCurrentState with vertexShader := vs, pixelShader := ps } }
  | .bindGeometry v i =>
    { ctx with fCurrentState := { ctx.fCurrentState with vertices := v, indices := i } }
  | .bindUniforms u =>
    { ctx with fCurrentState := { ctx.fCurrentState with uniforms := u } }
  | .bindTexture idx tex =>
    { ctx with fCurrentState :=
        { ctx.fCurrentState with fTextures := ctx.fCurrentState.fTextures.set idx tex } }
  | .enableZBuffer b =>
    { ctx with fCurrentState := { ctx.fCurrentState with fEnableZBuffer := b } }
  | .enableBlend b =>
    { ctx with fCurrentState := { ctx.fCurrentState with fEnableBlend := b } }

/-- The header-inline `RenderContext::bindTexture` (lines 45–48): the unchecked write
`fCurrentState.fTextures[textureIndex] = texture`.  An index outside the
fixed-size table is an out-of-bounds write, modelled as `none` (undefined
behavior); in-range indices store into exactly that slot. -/
def bindTextureWrite (state : DrawState) (textureIndex : ℕ) (texture : ℕ) :
    Option DrawState :=
  if textureIndex < state.fTextures.length then
    some { state with fTextures := state.fTextures.set textureIndex texture }
  else none

/-- Modelled from the spec (§4.4): `submitDrawCommand` copies `fCurrentState`
into the draw queue (body not in `src/`). -/
def submitDrawCommand (ctx : RenderContextState) : RenderContextState :=
  { ctx with fDrawQueue := ctx.fDrawQueue ++ [ctx.fCurrentState] }

/-- The compile-time tile cell size in pixels (spec §3: “a compile-time
constant (typical 64×64)”). -/
def TILE_SIZE : ℕ := 64

/-- Modelled from the spec (§4.4): `bindTarget` sets the framebuffer,
recomputes the tile grid as `ceil(w/TILE) × ceil(h/TILE)`, and allocates
`fTiles` as a grid of empty slice-arrays (body not in `src/`). -/
def bindTarget (ctx : RenderContextState) (width height : ℕ) : RenderContextState :=
  let cols := (width + TILE_SIZE - 1) / TILE_SIZE
  let rows := (height + TILE_SIZE - 1) / TILE_SIZE
  { ctx with
    fRenderTarget := some (width, height)
    fTileColumns := cols
    fTileRows := rows
    fTiles := List.replicate (cols * rows) [] }

/-- Modelled from the spec (§3 Sequence number): the per-draw sequence-number
stride `MAX_TRIS_PER_DRAW`.  Its value is not visible in `src/`; any value
that accommodates the per-draw triangle count works, 64 is used here. -/
def MAX_TRIS_PER_DRAW : ℕ := 64

/-- Modelled from the spec (§3 Sequence number): the value of
`fBaseSequenceNumber` at the start of frame `f` of a process run.  A run is
given by its frames, each frame by the per-draw emitted-triangle counts of
its draw queue.  The base starts at 0 and “advances by draw-queue size at
each `finish()`”. -/
def baseSequence (frames : List (List ℕ)) : ℕ → ℕ
  | 0 => 0
  | f + 1 => baseSequence frames f + (frames.getD f []).length

/-- Modelled from the spec (§3 Sequence number): the sequence number assigned
to sub-triangle `s` of draw `d` of frame `f`:
`fBaseSequenceNumber + drawIndex * MAX_TRIS_PER_DRAW + triangleSubIndex`. -/
def sequenceNumberAt (frames : List (List ℕ)) (f d s : ℕ) : ℕ :=
  baseSequence frames f + d * MAX_TRIS_PER_DRAW + s

/-- A process run exhibiting a cross-frame sequence-number collision: frame 0
submits `MAX_TRIS_PER_DRAW` draws of one triangle each, frame 1 one draw of
one triangle. -/
def collisionFrames : List (List ℕ) :=
  [List.replicate MAX_TRIS_PER_DRAW 1, [1]]

/-- An RGBA color, channels modelled in `ℚ`. -/
structure Color where
  r : ℚ
  g : ℚ
  b : ℚ
  a : ℚ
deriving DecidableEq

/-- Modelled from the spec (§4.3 pass 3 step 5): source-over compositing,
`out.rgb = src.a*src.rgb + (1-src.a)*dst.rgb`,
`out.a = src.a + (1-src.a)*dst.a`. -/
def sourceOver (src dst : Color) : Color :=
  ⟨src.a * src.r + (1 - src.a) * dst.r,
   src.a * src.g + (1 - src.a) * dst.g,
   src.a * src.b + (1 - src.a) * dst.b,
   src.a + (1 - src.a) * dst.a⟩

/-- Modelled from the spec (§4.3 pass 3 step 5, inside
`RenderContext::fillTile`): the color written for a covered pixel — the
source-over composite with the existing tile color when blending is enabled,
otherwise the shader output overwrites the tile color. -/
def writePixelColor (blendEnable : Bool) (src dst : Color) : Color :=
  if blendEnable then sourceOver src dst else src

/-- Opaque red. -/
def redColor : Color := ⟨1, 0, 0, 1⟩

/-- Modelled from the spec (§4.3 pass 2 steps 2–5): the dispatch of
`RenderContext::setUpTriangle`: discard with no output when the AND of the
three outcode masks is nonzero, pass the triangle through unmodified when
the OR is zero, otherwise clip against the frustum and re-fan.  Returns the
clip-space triangles handed to `enqueueTriangle`. -/
def setUpTriangleClip (v0 v1 v2 : Vec4) : List (Vec4 × Vec4 × Vec4) :=
  if outcodeMask v0 &&& outcodeMask v1 &&& outcodeMask v2 ≠ 0 then []
  else if outcodeMask v0 ||| outcodeMask v1 ||| outcodeMask v2 = 0 then [(v0, v1, v2)]
  else fanTriangles (clipFrustum [v0, v1, v2])

/-- Modelled from the spec (§4.3 pass 2 step 6, open question on sub-pixel
precision): map one clip-space coordinate to a fixed-point raster coordinate
with 4 fractional bits: perspective divide by `w`, viewport transform of the
`[-1,1]` range onto `[0, extent]` pixels, snap to 1/16 pixel. -/
def rasterCoord (extent : ℕ) (c w : ℚ) : ℤ :=
  ⌊(c / w + 1) * ((extent : ℚ) * 8)⌋

/-- The edge function / signed doubled area for raster points: the cross
product `(b - a) × (c - a)`. -/
def rastArea (axr ayr bxr byr cxr cyr : ℤ) : ℤ :=
  (bxr - axr) * (cyr - ayr) - (byr - ayr) * (cxr - axr)

/-- Modelled from the spec (§4.3 pass 2 step 6): `enqueueTriangle` performs
the perspective divide and fixed-point snap, computes the signed raster
area, and discards back-facing and degenerate triangles (area ≤ 0 — the
spec's conservative culling default). -/
def enqueueTriangle (fbWidth fbHeight : ℕ) (seq : ℤ) (cmd : ℕ)
    (tri : Vec4 × Vec4 × Vec4) : Option Triangle :=
  let x0r := rasterCoord fbWidth tri.1.x tri.1.w
  let y0r := rasterCoord fbHeight tri.1.y tri.1.w
  let x1r := rasterCoord fbWidth tri.2.1.x tri.2.1.w
  let y1r := rasterCoord fbHeight tri.2.1.y tri.2.1.w
  let x2r := rasterCoord fbWidth tri.2.2.x tri.2.2.w
  let y2r := rasterCoord fbHeight tri.2.2.y tri.2.2.w
  if rastArea x0r y0r x1r y1r x2r y2r ≤ 0 then none
  else some ⟨seq, cmd, tri.1.x, tri.1.y, tri.1.z, tri.2.1.x, tri.2.1.y, tri.2.1.z,
    tri.2.2.x, tri.2.2.y, tri.2.2.z, x0r, y0r, x1r, y1r, x2r, y2r, []⟩

/-- Enqueue the set-up triangles of one draw, assigning consecutive sequence
numbers starting at `seq0` (sub-index order: clip fragments follow their
parent). -/
def enqueueAll (fbWidth fbHeight : ℕ) (cmd : ℕ) :
    ℤ → List (Vec4 × Vec4 × Vec4) → List Triangle
  | _, [] => []
  | seq0, t :: rest =>
    match enqueueTriangle fbWidth fbHeight seq0 cmd t with
    | none => enqueueAll fbWidth fbHeight cmd (seq0 + 1) rest
    | some tr => tr :: enqueueAll fbWidth fbHeight cmd (seq0 + 1) rest

/-- Modelled from the spec (§4.3 passes 1–2): the clip-space triangles of a
draw — triples fetched through the index buffer, each vertex shaded by the
bound vertex shader (pass 1 is deterministic and per-vertex, so shading on
demand is equivalent to the parallel pass). -/
def drawClipTriangles (d : DrawState) : List (Vec4 × Vec4 × Vec4) :=
  (List.range (d.indices.length / 3)).map fun t =>
    (d.vertexShader (d.vertices.getD (d.indices.getD (3 * t) 0) []),
     d.vertexShader (d.vertices.getD (d.indices.getD (3 * t + 1) 0) []),
     d.vertexShader (d.vertices.getD (d.indices.getD (3 * t + 2) 0) []))

/-- Pass-2 front end for one draw: triangle setup, trivial accept/reject,
clipping, re-fanning — before sequence assignment and culling. -/
def setupOutputs (d : DrawState) : List (Vec4 × Vec4 × Vec4) :=
  ((drawClipTriangles d).map fun t => setUpTriangleClip t.1 t.2.1 t.2.2).flatten

/-- Modelled from the spec (§4.3 pass 2): all triangles a draw queue
produces, in submission order, with sequence numbers
`base + drawIndex * MAX_TRIS_PER_DRAW + subIndex`. -/
def processQueue (fbWidth fbHeight : ℕ) (base : ℤ) :
    ℕ → List DrawState → List Triangle
  | _, [] => []
  | dIdx, d :: rest =>
    enqueueAll fbWidth fbHeight dIdx (base + dIdx * (MAX_TRIS_PER_DRAW : ℤ))
        (setupOutputs d) ++
      processQueue fbWidth fbHeight base (dIdx + 1) rest

/-- All triangles of one frame, in submission order. -/
def allTriangles (fbWidth fbHeight : ℕ) (base : ℤ) (queue : List DrawState) :
    List Triangle :=
  processQueue fbWidth fbHeight base 0 queue

/-- The raster-space position of a pixel center (4 fractional bits):
`16·p + 8`. -/
def pixelCenter (p : ℕ) : ℤ := 16 * p + 8

/-- Whether directed raster edge `(a, b)` is a top or left edge, for the
top-left fill rule of spec §4.3 pass 3 step 2. -/
def isTopLeft (axr ayr bxr byr : ℤ) : Bool :=
  (decide (ayr = byr) && decide (bxr < axr)) || decide (byr < ayr)

/-- One edge-function test at a point: strictly positive, or zero on a
top-left edge. -/
def edgeCovers (axr ayr bxr byr cxr cyr : ℤ) : Bool :=
  decide (0 < rastArea axr ayr bxr byr cxr cyr) ||
    (decide (rastArea axr ayr bxr byr cxr cyr = 0) && isTopLeft axr ayr bxr byr)

/-- Modelled from the spec (§4.3 pass 3 step 2): a pixel is covered by a
triangle when all three edge functions at the pixel center agree in sign,
ties broken by the top-left rule. -/
def covers (t : Triangle) (px py : ℕ) : Bool :=
  edgeCovers t.x0Rast t.y0Rast t.x1Rast t.y1Rast (pixelCenter px) (pixelCenter py) &&
  edgeCovers t.x1Rast t.y1Rast t.x2Rast t.y2Rast (pixelCenter px) (pixelCenter py) &&
  edgeCovers t.x2Rast t.y2Rast t.x0Rast t.y0Rast (pixelCenter px) (pixelCenter py)

/-- Raster AABB of a binned triangle. -/
def triMinX (t : Triangle) : ℤ := min t.x0Rast (min t.x1Rast t.x2Rast)

/-- Raster AABB of a binned triangle. -/
def triMaxX (t : Triangle) : ℤ := max t.x0Rast (max t.x1Rast t.x2Rast)

/-- Raster AABB of a binned triangle. -/
def triMinY (t : Triangle) : ℤ := min t.y0Rast (min t.y1Rast t.y2Rast)

/-- Raster AABB of a binned triangle. -/
def triMaxY (t : Triangle) : ℤ := max t.y0Rast (max t.y1Rast t.y2Rast)

/-- Tile extent in raster units: 64 pixels × 16 subpixel steps. -/
def TILE_RAST : ℤ := 1024

/-- Modelled from the spec (§3 invariants, §4.3 pass 2 step 6): a triangle
is appended to every tile whose bounds intersect its raster AABB. -/
def aabbIntersectsTile (t : Triangle) (tileCol tileRow : ℕ) : Bool :=
  decide (triMinX t < ((tileCol : ℤ) + 1) * TILE_RAST) &&
  decide ((tileCol : ℤ) * TILE_RAST ≤ triMaxX t) &&
  decide (triMinY t < ((tileRow : ℤ) + 1) * TILE_RAST) &&
  decide ((tileRow : ℤ) * TILE_RAST ≤ triMaxY t)

/-- Per-pixel shading step: apply the deterministic per-pixel pipeline
(pixel shader, Z test, blend — folded into the abstract state `S` and step
function) for one triangle when it covers the pixel. -/
def shadeStep {S : Type} (step : S → Triangle → S) (px py : ℕ)
    (acc : S) (t : Triangle) : S :=
  if covers t px py then step acc t else acc

/-- Modelled from the spec (§8 property 1): the serial reference renderer —
one thread, no binning, triangles processed in submission order; the value
of the pixel buffer at a pixel is the fold of the per-pixel step over all
triangles in submission order. -/
def serialRenderPixel {S : Type} (step : S → Triangle → S) (init : S)
    (fbWidth fbHeight : ℕ) (base : ℤ) (queue : List DrawState) (px py : ℕ) : S :=
  (allTriangles fbWidth fbHeight base queue).foldl (shadeStep step px py) init

/-- Insertion sort of a tile bin by ascending sequence number (spec §4.3
pass 3 step 1: “insertion sort is adequate”). -/
def sortTileList (l : List Triangle) : List Triangle :=
  List.insertionSort (fun a tri => a.sequenceNumber ≤ tri.sequenceNumber) l

/-- Modelled from the spec (§4.3 passes 3–4, `RenderContext::finish`): the
parallel pipeline's pixel value: the pixel's tile bin — filled by the
concurrent pass-2 appends in some nondeterministic order `bins` — is sorted
by sequence number and folded in that order.  Pass 4 copies tile memory out
unchanged. -/
def parallelRenderPixel {S : Type} (step : S → Triangle → S) (init : S)
    (bins : ℕ × ℕ → List Triangle) (px py : ℕ) : S :=
  (sortTileList (bins (px / TILE_SIZE, py / TILE_SIZE))).foldl
    (shadeStep step px py) init

/-- A draw state used to instantiate theorems with hypotheses: nothing in
its index buffer, so its draw emits no triangles. -/
def emptyIndexDraw : DrawState :=
  { vertexShader := fun _ => ⟨0, 0, 0, 1⟩, pixelShader := 1,
    vertices := [[0, 0, 0, 1]], indices := [], uniforms := [],
    fTextures := List.replicate MAX_TEXTURES 0,
    fEnableZBuffer := false, fEnableBlend := false }

end librender

namespace librender

theorem chg_cons_le (a : Bool) (l : List Bool) : chg l ≤ chg (a :: l) := by
  cases l with
  | nil => simp [chg]
  | cons b t => simp only [chg]; omega

theorem chg_cons_cons (a b : Bool) (t : List Bool) :
    chg (a :: b :: t) = (if a = b then 0 else 1) + chg (b :: t) := rfl

theorem bool_triangle (a m v : Bool) :
    (if a = v then 0 else 1) ≤ ((if a = m then 0 else 1) + if m = v then 0 else 1 : ℕ) := by
  cases a <;> cases m <;> cases v <;> simp

theorem chg_append_pivot : ∀ (U V : List Bool) (m : Bool),
    chg (U ++ V) ≤ chg (U ++ [m]) + chg (m :: V)
  | [], V, m => by
    have := chg_cons_le m V
    simp only [List.nil_append, chg]
    omega
  | [a], V, m => by
    cases V with
    | nil => simp [chg]
    | cons v V' =>
      simp only [List.singleton_append, List.cons_append, List.nil_append, chg_cons_cons]
      have h1 := bool_triangle a m v
      omega
  | a :: b :: U', V, m => by
    have ih := chg_append_pivot (b :: U') V m
    simp only [List.cons_append, chg_cons_cons] at *
    omega

theorem chg_snoc_triangle : ∀ (l : List Bool) (a x : Bool),
    chg (l ++ [a]) ≤ chg (l ++ [x]) + chg [x, a]
  | [], a, x => by simp [chg]
  | [u], a, x => by
    simp only [List.singleton_append, chg, List.nil_append]
    have := bool_triangle u x a
    omega
  | u :: v :: t, a, x => by
    have ih := chg_snoc_triangle (v :: t) a x
    simp only [List.cons_append, chg_cons_cons] at *
    omega

theorem cchg_le_pivot : ∀ (l : List Bool) (x : Bool), cchg l ≤ chg (x :: l ++ [x])
  | [], x => by simp [cchg, chg]
  | h :: t, x => by
    simp only [cchg, List.cons_append]
    have h1 : chg ((h :: t) ++ [h]) ≤ chg ((h :: t) ++ [x]) + chg [x, h] :=
      chg_snoc_triangle (h :: t) h x
    have h2 : chg (x :: (h :: t) ++ [x]) = (if x = h then 0 else 1) + chg ((h :: t) ++ [x]) := rfl
    have h3 : chg [x, h] = (if x = h then 0 else 1) := by simp [chg]
    simp only [List.cons_append] at h1 h2 ⊢
    omega

theorem eval_lerpV (g : LinForm) (t : ℚ) (s e : Vec4) :
    g.eval (lerpV t s e) = g.eval s + t * (g.eval e - g.eval s) := by
  simp only [LinForm.eval, lerpV]
  ring

theorem signBit_lerp_eq (g : LinForm) (t : ℚ) (s e : Vec4) (ht0 : 0 ≤ t) (ht1 : t ≤ 1)
    (hse : signBit g s = signBit g e) : signBit g (lerpV t s e) = signBit g s := by
  simp only [signBit, decide_eq_decide] at hse ⊢
  rw [eval_lerpV]
  constructor
  · intro hv
    by_contra hs
    have hs' : g.eval s < 0 := lt_of_not_le hs
    have he' : g.eval e < 0 := lt_of_not_le fun h => hs (hse.mpr h)
    have hsum : g.eval s + t * (g.eval e - g.eval s) = (1 - t) * g.eval s + t * g.eval e := by
      ring
    rw [hsum] at hv
    by_cases h1 : t < 1
    · have hneg : (1 - t) * g.eval s < 0 := mul_neg_of_pos_of_neg (by linarith) hs'
      have hnp : t * g.eval e ≤ 0 := by
        have := mul_nonneg ht0 (neg_nonneg.mpr he'.le)
        nlinarith
      linarith
    · have ht : t = 1 := le_antisymm ht1 (not_lt.mp h1)
      rw [ht] at hv
      nlinarith
  · intro hs
    have he : 0 ≤ g.eval e := hse.mp hs
    nlinarith

theorem intersect_param_bounds (g : LinForm) (s e : Vec4)
    (hne : signBit g s ≠ signBit g e) :
    0 ≤ g.eval s / (g.eval s - g.eval e) ∧ g.eval s / (g.eval s - g.eval e) ≤ 1 := by
  simp only [signBit, Ne, decide_eq_decide] at hne
  by_cases hs : 0 ≤ g.eval s
  · have he : g.eval e < 0 := lt_of_not_le fun h => hne ⟨fun _ => h, fun _ => hs⟩
    have hd : 0 < g.eval s - g.eval e := by linarith
    constructor
    · exact div_nonneg hs hd.le
    · rw [div_le_one hd]; linarith
  · have hs' : g.eval s < 0 := lt_of_not_le hs
    have he : 0 ≤ g.eval e := by
      by_contra he'
      exact hne ⟨fun h => absurd h hs, fun h => absurd h he'⟩
    have hrw : g.eval s / (g.eval s - g.eval e) = (-(g.eval s)) / (g.eval e - g.eval s) := by
      rw [div_eq_div_iff] <;> [ring; linarith; linarith]
    have hd : 0 < g.eval e - g.eval s := by linarith
    rw [hrw]
    constructor
    · exact div_nonneg (by linarith) hd.le
    · rw [div_le_one hd]; linarith

theorem signList_append (g : LinForm) (A B : List Vec4) :
    signList g (A ++ B) = signList g A ++ signList g B := by
  simp [signList]

theorem edge_chg_bound (g gt : LinForm) (s e : Vec4) :
    chg (signBit gt s :: signList gt (edgeBatch g (s, e)) ++ [signBit gt e]) ≤
      chg [signBit gt s, signBit gt e] := by
  by_cases hcross : signBit g s = signBit g e
  · -- no crossing on this edge: the batch is `[e]` or `[]`
    have hb : edgeBatch g (s, e) = if 0 ≤ g.eval e then [e] else [] := by
      simp only [signBit, decide_eq_decide] at hcross
      by_cases he : 0 ≤ g.eval e
      · have hs : 0 ≤ g.eval s := hcross.mpr he
        simp [edgeBatch, hs, he]
      · have hs : ¬ 0 ≤ g.eval s := fun h => he (hcross.mp h)
        simp [edgeBatch, hs, he]
    rw [hb]
    by_cases he : 0 ≤ g.eval e <;>
      simp only [if_pos, if_neg, he, ite_true, ite_false, signList, List.map_cons,
        List.map_nil, List.nil_append, List.cons_append, chg] <;> omega
  · -- crossing edge: the batch is `[X, e]` or `[X]`; the crossing point X may
    -- carry either sign for `gt`, both endpoint signs differ so one change
    -- is spent either way
    have ht := intersect_param_bounds g s e hcross
    have hb : edgeBatch g (s, e) =
        if 0 ≤ g.eval e then [intersectPlane g s e, e] else [intersectPlane g s e] := by
      simp only [signBit, Ne, decide_eq_decide] at hcross
      by_cases he : 0 ≤ g.eval e
      · have hs : ¬ 0 ≤ g.eval s := fun h => hcross ⟨fun _ => he, fun _ => h⟩
        simp [edgeBatch, hs, he]
      · have hs : 0 ≤ g.eval s := by
          by_contra hs'
          exact hcross ⟨fun h => absurd h hs', fun h => absurd h he⟩
        simp [edgeBatch, hs, he]
    by_cases hgt : signBit gt s = signBit gt e
    · -- same gt-sign at both ends: X has that sign too (convex combination)
      have hX : signBit gt (intersectPlane g s e) = signBit gt s :=
        signBit_lerp_eq gt _ s e ht.1 ht.2 hgt
      rw [hb]
      by_cases he : 0 ≤ g.eval e <;>
        simp only [he, ite_true, ite_false, signList, List.map_cons, List.map_nil,
          List.nil_append, List.cons_append, chg, hX, hgt] <;> simp
    · rw [hb]
      by_cases he : 0 ≤ g.eval e <;>
        [skip; skip] <;>
        simp only [he, ite_true, ite_false, signList, List.map_cons, List.map_nil,
          List.nil_append, List.cons_append, chg] <;>
        rcases Bool.eq_false_or_eq_true (signBit gt (intersectPlane g s e)) with hX | hX <;>
        rcases Bool.eq_false_or_eq_true (signBit gt s) with hs | hs <;>
        rcases Bool.eq_false_or_eq_true (signBit gt e) with he' | he' <;>
        simp_all

theorem chain_glue (g gt : LinForm) (first : Vec4) : ∀ (cur : Vec4) (rest : List Vec4),
    chg (signBit gt cur ::
        signList gt (((edgesFrom first cur rest).map (edgeBatch g)).flatten) ++
        [signBit gt first]) ≤
      chg (signBit gt cur :: signList gt rest ++ [signBit gt first])
  | cur, [] => by
    simpa [edgesFrom, signList] using edge_chg_bound g gt cur first
  | cur, nxt :: rest => by
    have ih := chain_glue g gt first nxt rest
    have hedge := edge_chg_bound g gt cur nxt
    have hpivot := chg_append_pivot
      (signBit gt cur :: signList gt (edgeBatch g (cur, nxt)))
      (signList gt (((edgesFrom first nxt rest).map (edgeBatch g)).flatten) ++ [signBit gt first])
      (signBit gt nxt)
    have hL : signList gt (((edgesFrom first cur (nxt :: rest)).map (edgeBatch g)).flatten) =
        signList gt (edgeBatch g (cur, nxt)) ++
          signList gt (((edgesFrom first nxt rest).map (edgeBatch g)).flatten) := by
      simp [edgesFrom, signList_append]
    rw [hL]
    have hR : chg (signBit gt cur :: signList gt (nxt :: rest) ++ [signBit gt first]) =
        (if signBit gt cur = signBit gt nxt then 0 else 1) +
          chg (signBit gt nxt :: signList gt rest ++ [signBit gt first]) := rfl
    rw [hR]
    have hE : chg [signBit gt cur, signBit gt nxt] =
        (if signBit gt cur = signBit gt nxt then 0 else 1) := by simp [chg]
    rw [hE] at hedge
    simp only [List.cons_append, List.append_assoc] at hpivot hedge ih ⊢
    omega

theorem cchg_clipPlane (g gt : LinForm) (P : List Vec4) :
    cchg (signList gt (clipPlane g P)) ≤ cchg (signList gt P) := by
  cases P with
  | nil => simp [clipPlane, polyEdges, cchg, signList]
  | cons p rest =>
    have h1 := cchg_le_pivot (signList gt (clipPlane g (p :: rest))) (signBit gt p)
    have h2 := chain_glue g gt p p rest
    simp only [clipPlane, polyEdges] at h1 ⊢
    calc cchg (signList gt (((edgesFrom p p rest).map (edgeBatch g)).flatten)) ≤
        chg (signBit gt p ::
          signList gt (((edgesFrom p p rest).map (edgeBatch g)).flatten) ++ [signBit gt p]) := h1
      _ ≤ chg (signBit gt p :: signList gt rest ++ [signBit gt p]) := h2
      _ = cchg (signList gt (p :: rest)) := by simp [cchg, signList]

theorem convexCycle_clipPlane (g : LinForm) (P : List Vec4) (h : ConvexCycle P) :
    ConvexCycle (clipPlane g P) :=
  fun gt => le_trans (cchg_clipPlane g gt P) (h gt)

theorem edgeBatch_length (g : LinForm) (s e : Vec4) :
    (edgeBatch g (s, e)).length =
      (if signBit g e then 1 else 0) + (if signBit g s = signBit g e then 0 else 1) := by
  simp only [edgeBatch, signBit]
  by_cases hs : 0 ≤ g.eval s <;> by_cases he : 0 ≤ g.eval e <;> simp [hs, he]

theorem length_edgesFlatten (g : LinForm) (first : Vec4) : ∀ (cur : Vec4) (rest : List Vec4),
    (((edgesFrom first cur rest).map (edgeBatch g)).flatten).length =
      ((signList g rest).count true + (if signBit g first then 1 else 0)) +
        chg (signBit g cur :: signList g rest ++ [signBit g first])
  | cur, [] => by
    simp only [edgesFrom, List.map_cons, List.map_nil, List.flatten_cons, List.flatten_nil,
      List.append_nil, signList, List.map_nil, List.count_nil, List.nil_append]
    rw [edgeBatch_length]
    simp [chg]
  | cur, nxt :: rest => by
    have ih := length_edgesFlatten g first nxt rest
    simp only [edgesFrom, List.map_cons, List.flatten_cons, List.length_append,
      signList, List.map_cons, List.count_cons, List.cons_append] at *
    rw [edgeBatch_length]
    have hsplit : chg (signBit g cur :: signBit g nxt :: (rest.map (signBit g) ++ [signBit g first])) =
        (if signBit g cur = signBit g nxt then 0 else 1) +
          chg (signBit g nxt :: (rest.map (signBit g) ++ [signBit g first])) := rfl
    rw [hsplit, ih]
    rcases Bool.eq_false_or_eq_true (signBit g nxt) with h | h <;> simp [h] <;> omega

theorem chg_eq_zero_of_const (x : Bool) : ∀ (l : List Bool), (∀ a ∈ l, a = x) → chg l = 0
  | [], _ => rfl
  | [_], _ => rfl
  | a :: b :: t, h => by
    have ha := h a (by simp)
    have hb := h b (by simp)
    have ht : ∀ c ∈ b :: t, c = x := fun c hc => h c (List.mem_cons_of_mem a hc)
    rw [chg_cons_cons, chg_eq_zero_of_const x (b :: t) ht, ha, hb]
    simp

theorem count_true_lt_of_mem_false : ∀ (l : List Bool), false ∈ l → l.count true < l.length
  | a :: t, h => by
    rcases List.mem_cons.mp h with h | h
    · have ha : a = false := h.symm
      subst ha
      have := List.count_le_length (l := t) (a := true)
      simp only [List.count_cons, List.length_cons]
      simp
      omega
    · have := count_true_lt_of_mem_false t h
      simp only [List.count_cons, List.length_cons]
      split <;> omega

theorem length_clipPlane_le (g : LinForm) (P : List Vec4)
    (h2 : cchg (signList g P) ≤ 2) :
    (clipPlane g P).length ≤ P.length + 1 := by
  cases P with
  | nil => simp [clipPlane, polyEdges]
  | cons p rest =>
    have hlen := length_edgesFlatten g p p rest
    have hc : cchg (signList g (p :: rest)) =
        chg (signBit g p :: signList g rest ++ [signBit g p]) := by simp [cchg, signList]
    simp only [clipPlane, polyEdges]
    rw [hlen]
    have hcount : (signList g rest).count true ≤ rest.length := by
      simpa [signList] using List.count_le_length true (signList g rest)
    by_cases hall : ∀ a ∈ signBit g p :: signList g rest ++ [signBit g p], a = true
    · have hz : chg (signBit g p :: signList g rest ++ [signBit g p]) = 0 :=
        chg_eq_zero_of_const true _ hall
      rw [hz] at hc ⊢
      simp only [List.length_cons]
      split <;> omega
    · push_neg at hall
      obtain ⟨a, ha, hfa⟩ := hall
      have hfa' : a = false := Bool.eq_false_iff.mpr hfa
      subst hfa'
      have hslen : (signList g rest).length = rest.length := by simp [signList]
      have hcount' : (signList g rest).count true + (if signBit g p then 1 else 0) ≤ rest.length := by
        rcases List.mem_cons.mp ha with h | h
        · have hp : signBit g p = false := h.symm
          simp only [hp, Bool.false_eq_true, if_neg, if_false]
          omega
        · rcases List.mem_append.mp h with h | h
          · have := count_true_lt_of_mem_false (signList g rest) h
            split <;> omega
          · have hp : signBit g p = false := by
              simp only [List.mem_singleton] at h
              exact h.symm
            simp only [hp, Bool.false_eq_true, if_neg, if_false]
            omega
      have h2' : chg (signBit g p :: signList g rest ++ [signBit g p]) ≤ 2 := by
        rw [← hc]; exact h2
      simp only [List.length_cons]
      omega

theorem convexCycle_triple (v0 v1 v2 : Vec4) : ConvexCycle [v0, v1, v2] := by
  intro g
  have h3 : ∀ a b c : Bool, cchg [a, b, c] ≤ 2 := by decide
  simpa [signList] using h3 (signBit g v0) (signBit g v1) (signBit g v2)

theorem clip_fold_bounds : ∀ (planes : List LinForm) (P : List Vec4), ConvexCycle P →
    ConvexCycle (planes.foldl (fun p g => clipPlane g p) P) ∧
      (planes.foldl (fun p g => clipPlane g p) P).length ≤ P.length + planes.length
  | [], P, hP => ⟨hP, by simp⟩
  | g :: gs, P, hP => by
    have hP' : ConvexCycle (clipPlane g P) := convexCycle_clipPlane g P hP
    have hlen : (clipPlane g P).length ≤ P.length + 1 := length_clipPlane_le g P (hP g)
    have ih := clip_fold_bounds gs (clipPlane g P) hP'
    refine ⟨by simpa using ih.1, ?_⟩
    have := ih.2
    simp only [List.foldl_cons, List.length_cons]
    omega

theorem fanTriangles_length : ∀ (poly : List Vec4), (fanTriangles poly).length = poly.length - 2
  | [] => rfl
  | [_] => rfl
  | _ :: _ :: rest => by
    simp [fanTriangles, List.length_zip]

/-- C4 (amended): homogeneous Sutherland–Hodgman clipping of a triangle
against the six frustum planes emits an output polygon of at most 9 vertices
(each plane pass adds at most one vertex to a convex cycle), and re-fanning
the output polygon yields at most 7 triangles per input triangle.  The
claimed lower bound of 3 output vertices does not hold: clipping may produce
the empty polygon (see the counterexample theorem). -/
theorem clipFrustum_output_bounds (v0 v1 v2 : Vec4) :
    (clipFrustum [v0, v1, v2]).length ≤ 9 ∧
      (fanTriangles (clipFrustum [v0, v1, v2])).length ≤ 7 := by
  have h := clip_fold_bounds frustumPlanes [v0, v1, v2] (convexCycle_triple v0 v1 v2)
  have h9 : (clipFrustum [v0, v1, v2]).length ≤ 9 := by
    have := h.2
    simpa [clipFrustum, frustumPlanes] using this
  exact ⟨h9, by rw [fanTriangles_length]; omega⟩

/-- C4 counterexample: the triangle `(10,1,5,5), (1,10,5,5), (10,10,5,5)` has
outcode masks `1, 4, 5`, whose AND is zero and OR is nonzero, so triangle
setup sends it to the clipper — yet Sutherland–Hodgman clipping emits the
empty polygon, refuting the claim that every input triangle produces an
output polygon of 3 to 9 vertices. -/
theorem clipFrustum_lower_bound_counterexample :
    (outcodeMask ⟨10, 1, 5, 5⟩ &&& outcodeMask ⟨1, 10, 5, 5⟩ &&&
        outcodeMask ⟨10, 10, 5, 5⟩) = 0 ∧
      (outcodeMask ⟨10, 1, 5, 5⟩ ||| outcodeMask ⟨1, 10, 5, 5⟩ |||
        outcodeMask ⟨10, 10, 5, 5⟩) ≠ 0 ∧
      ¬ 3 ≤ (clipFrustum [⟨10, 1, 5, 5⟩, ⟨1, 10, 5, 5⟩, ⟨10, 10, 5, 5⟩]).length := by
  refine ⟨by norm_num [outcodeMask], ?_, ?_⟩
  · have h1 : outcodeMask ⟨10, 1, 5, 5⟩ = 1 := by norm_num [outcodeMask]
    have h4 : outcodeMask ⟨1, 10, 5, 5⟩ = 4 := by norm_num [outcodeMask]
    have h5 : outcodeMask ⟨10, 10, 5, 5⟩ = 5 := by norm_num [outcodeMask]
    rw [h1, h4, h5]
    decide
  have h : clipFrustum [⟨10, 1, 5, 5⟩, ⟨1, 10, 5, 5⟩, ⟨10, 10, 5, 5⟩] = [] := by
    norm_num [clipFrustum, frustumPlanes, clipPlane, polyEdges, edgesFrom, edgeBatch,
      intersectPlane, lerpV, LinForm.eval]
  rw [h]
  simp

/-- C8: `Triangle::operator>` returns true if and only if the left operand's
sequence number is strictly greater than the right operand's. -/
theorem triangle_gtOp_iff (a tri : Triangle) :
    a.gtOp tri = true ↔ tri.sequenceNumber < a.sequenceNumber := by
  simp [Triangle.gtOp]

/-- C10: a freshly constructed `RenderContext` (no `setClearColor` call)
stores clear color `0xff000000` (opaque black), and the default
working-memory size is `0x400000` bytes (4 MiB). -/
theorem renderContext_construct_defaults :
    (RenderContext.construct).fClearColor = 0xff000000 ∧
      (RenderContext.construct).workingMemSize = 0x400000 :=
  ⟨rfl, rfl⟩

/-- C5: with blending enabled the written color is the source-over composite
of the shader output with the existing tile color
(`out.rgb = src.a·src.rgb + (1−src.a)·dst.rgb`,
`out.a = src.a + (1−src.a)·dst.a`); with blending disabled the shader output
overwrites the tile color; and source-over of a color with `src.a = 1/2`
over opaque red yields exactly `0.5·src + 0.5·red` in each color channel
(the alpha channel resolves to 1 by the stated alpha formula). -/
theorem writePixelColor_spec (src dst : Color) :
    writePixelColor true src dst =
      ⟨src.a * src.r + (1 - src.a) * dst.r, src.a * src.g + (1 - src.a) * dst.g,
       src.a * src.b + (1 - src.a) * dst.b, src.a + (1 - src.a) * dst.a⟩ ∧
    writePixelColor false src dst = src ∧
    (src.a = 1 / 2 →
      writePixelColor true src redColor =
        ⟨1 / 2 * src.r + 1 / 2 * redColor.r, 1 / 2 * src.g + 1 / 2 * redColor.g,
         1 / 2 * src.b + 1 / 2 * redColor.b, 1⟩) := by
  refine ⟨rfl, rfl, fun ha => ?_⟩
  simp only [writePixelColor, if_pos, sourceOver, redColor, ha, Color.mk.injEq]
  norm_num

/-- Witness for the blend theorem: half-transparent blue composited over
red gives the half-and-half mix with alpha 1. -/
theorem writePixelColor_spec_witness :
    writePixelColor true ⟨0, 0, 1, 1 / 2⟩ redColor = ⟨1 / 2, 0, 1 / 2, 1⟩ := by
  have h := (writePixelColor_spec ⟨0, 0, 1, 1 / 2⟩ redColor).2.2 rfl
  rw [h]
  norm_num [redColor]

/-- C9: `bindTexture` stores the texture into exactly the given slot of the
current state's fixed-size texture table for every in-range index — every
other slot and every other field of the state is unchanged — and an index
outside the table's range is an out-of-bounds write (the header performs no
bounds check), modelled as undefined behavior. -/
theorem bindTexture_spec (state : DrawState) (textureIndex texture : ℕ) :
    (textureIndex < state.fTextures.length →
      bindTextureWrite state textureIndex texture =
          some { state with fTextures := state.fTextures.set textureIndex texture } ∧
        (state.fTextures.set textureIndex texture).getD textureIndex 0 = texture ∧
        (∀ j, j ≠ textureIndex →
          (state.fTextures.set textureIndex texture).getD j 0 = state.fTextures.getD j 0)) ∧
    (state.fTextures.length ≤ textureIndex →
      bindTextureWrite state textureIndex texture = none) := by
  constructor
  · intro h
    refine ⟨by simp [bindTextureWrite, h], ?_, ?_⟩
    · simp [List.getD, List.getElem?_set_self', h]
    · intro j hj
      simp [List.getD, List.getElem?_set_ne (Ne.symm hj)]
  · intro h
    simp [bindTextureWrite, Nat.not_lt.mpr h]

/-- Witness for `bindTexture`: slot 2 of a fresh state's 4-entry table is
in range and is written; index 9 is out of bounds. -/
theorem bindTexture_spec_witness :
    (2 < initialDrawState.fTextures.length ∧
      bindTextureWrite initialDrawState 2 7 =
        some { initialDrawState with fTextures := initialDrawState.fTextures.set 2 7 } ∧
      (initialDrawState.fTextures.set 2 7).getD 2 0 = 7) ∧
    (initialDrawState.fTextures.length ≤ 9 ∧
      bindTextureWrite initialDrawState 9 7 = none) := by
  have h2 : 2 < initialDrawState.fTextures.length := by
    simp [initialDrawState, MAX_TEXTURES]
  have h9 : initialDrawState.fTextures.length ≤ 9 := by
    simp [initialDrawState, MAX_TEXTURES]
  have ha := (bindTexture_spec initialDrawState 2 7).1 h2
  have hb := (bindTexture_spec initialDrawState 9 7).2 h9
  exact ⟨⟨h2, ha.1, ha.2.1⟩, h9, hb⟩

/-- C3: `submitDrawCommand` appends a copy of the current bound state to the
draw queue, and any subsequent sequence of `bindShader` / `bindGeometry` /
`bindUniforms` / `bindTexture` / `enableZBuffer` / `enableBlend` calls
leaves the queue — hence every already-queued draw record — unchanged. -/
theorem submit_snapshot_immutable (ctx : RenderContextState) (ops : List BindOp) :
    (submitDrawCommand ctx).fDrawQueue = ctx.fDrawQueue ++ [ctx.fCurrentState] ∧
      (ops.foldl applyBind ctx).fDrawQueue = ctx.fDrawQueue := by
  refine ⟨rfl, ?_⟩
  induction ops generalizing ctx with
  | nil => rfl
  | cons op rest ih =>
    have hop : (applyBind ctx op).fDrawQueue = ctx.fDrawQueue := by
      cases op <;> rfl
    rw [List.foldl_cons, ih (applyBind ctx op), hop]

/-- C7: `bindTarget` recomputes the tile grid: the stored column and row
counts equal `(w + TILE−1)/TILE` and `(h + TILE−1)/TILE` and are exactly the
least tile counts covering the target (the ceilings `⌈w/TILE⌉`, `⌈h/TILE⌉`),
and `fTiles` is allocated as a grid of exactly `columns × rows` empty bins. -/
theorem bindTarget_spec (ctx : RenderContextState) (width height : ℕ) :
    ((bindTarget ctx width height).fTileColumns = (width + TILE_SIZE - 1) / TILE_SIZE ∧
      width ≤ (bindTarget ctx width height).fTileColumns * TILE_SIZE ∧
      (∀ m : ℕ, width ≤ m * TILE_SIZE → (bindTarget ctx width height).fTileColumns ≤ m)) ∧
    ((bindTarget ctx width height).fTileRows = (height + TILE_SIZE - 1) / TILE_SIZE ∧
      height ≤ (bindTarget ctx width height).fTileRows * TILE_SIZE ∧
      (∀ m : ℕ, height ≤ m * TILE_SIZE → (bindTarget ctx width height).fTileRows ≤ m)) ∧
    (bindTarget ctx width height).fTiles =
      List.replicate
        ((bindTarget ctx width height).fTileColumns *
          (bindTarget ctx width height).fTileRows) [] ∧
    (bindTarget ctx width height).fTiles.length =
      (bindTarget ctx width height).fTileColumns * (bindTarget ctx width height).fTileRows ∧
    (∀ bin ∈ (bindTarget ctx width height).fTiles, bin = []) := by
  refine ⟨⟨rfl, ?_, ?_⟩, ⟨rfl, ?_, ?_⟩, rfl, by simp [bindTarget], ?_⟩
  · simp only [bindTarget, TILE_SIZE]
    omega
  · intro m hm
    simp only [bindTarget, TILE_SIZE] at *
    omega
  · simp only [bindTarget, TILE_SIZE]
    omega
  · intro m hm
    simp only [bindTarget, TILE_SIZE] at *
    omega
  · intro bin hbin
    exact List.eq_of_mem_replicate hbin

/-- Witness for `bindTarget`: a 100×33 target gets a 2×1 grid of empty
bins; 2 columns cover 100 pixels and no fewer do. -/
theorem bindTarget_spec_witness :
    100 ≤ (bindTarget RenderContext.construct 100 33).fTileColumns * TILE_SIZE ∧
      (bindTarget RenderContext.construct 100 33).fTileColumns ≤ 2 ∧
      (bindTarget RenderContext.construct 100 33).fTileRows ≤ 1 := by
  have h := bindTarget_spec RenderContext.construct 100 33
  exact ⟨h.1.2.1, h.1.2.2 2 (by decide), h.2.1.2.2 1 (by decide)⟩

/-- C2 counterexample: with `MAX_TRIS_PER_DRAW = 64`, a first frame of 64
single-triangle draws and a second frame of one draw: `fBaseSequenceNumber`
advances by the draw-queue size (64) at `finish()`, so the first triangle of
frame 1 receives sequence number 64 — the same number as the triangle of
draw 1 of frame 0.  Sequence numbers do collide across frames. -/
theorem sequence_collision_counterexample :
    (0 : ℕ) ≠ 1 ∧
      1 < (collisionFrames.getD 0 []).length ∧
      0 < (collisionFrames.getD 0 []).getD 1 0 ∧
      0 < (collisionFrames.getD 1 []).length ∧
      0 < (collisionFrames.getD 1 []).getD 0 0 ∧
      0 < MAX_TRIS_PER_DRAW ∧
      sequenceNumberAt collisionFrames 0 1 0 = sequenceNumberAt collisionFrames 1 0 0 := by
  refine ⟨by decide, by decide, by decide, by decide, by decide, by decide, ?_⟩
  decide

/-- C2 (amended): every triangle's sequence number is
`fBaseSequenceNumber + drawIndex·MAX_TRIS_PER_DRAW + triangleSubIndex`, the
base advances by the draw-queue size at each `finish()`, and within one
frame sequence numbers are strictly increasing in draw order (draw-major,
sub-index-minor) — so they are unique within a frame and sorting a tile's
list by sequence number recovers the frame's draw order.  Across frames
numbers can collide (see the counterexample), because the base advances by
the queue size, not by `queueSize · MAX_TRIS_PER_DRAW`. -/
theorem sequence_numbers_within_frame (frames : List (List ℕ)) (f d s dt st : ℕ)
    (hs : s < MAX_TRIS_PER_DRAW) (hst : st < MAX_TRIS_PER_DRAW) :
    sequenceNumberAt frames f d s =
        baseSequence frames f + d * MAX_TRIS_PER_DRAW + s ∧
      baseSequence frames (f + 1) =
        baseSequence frames f + (frames.getD f []).length ∧
      (d < dt ∨ (d = dt ∧ s < st) →
        sequenceNumberAt frames f d s < sequenceNumberAt frames f dt st) := by
  refine ⟨rfl, rfl, fun hlex => ?_⟩
  rcases hlex with h | ⟨rfl, h⟩ <;>
    · simp only [sequenceNumberAt, MAX_TRIS_PER_DRAW] at *
      omega

/-- Witness for the sequence-number theorem: in a one-frame run with one
two-triangle draw, sub-triangle 0 sorts before sub-triangle 1. -/
theorem sequence_numbers_within_frame_witness :
    (0 : ℕ) < MAX_TRIS_PER_DRAW ∧ 1 < MAX_TRIS_PER_DRAW ∧
      sequenceNumberAt [[2]] 0 0 0 < sequenceNumberAt [[2]] 0 0 1 := by
  refine ⟨by decide, by decide, ?_⟩
  exact (sequence_numbers_within_frame [[2]] 0 0 0 0 1 (by decide) (by decide)).2.2
    (Or.inr ⟨rfl, by decide⟩)

theorem outcodeMask_eq_zero_iff (v : Vec4) : outcodeMask v = 0 ↔ insideFrustum v := by
  unfold outcodeMask insideFrustum
  split_ifs <;> simp_all [not_lt]

theorem nat_lor_eq_zero {a b : ℕ} (h : a ||| b = 0) : a = 0 ∧ b = 0 := by
  constructor
  · by_contra ha
    obtain ⟨k, hk⟩ := Nat.exists_most_significant_bit ha
    have ht := Nat.testBit_lor a b k
    rw [h] at ht
    simp [hk] at ht
  · by_contra hb
    obtain ⟨k, hk⟩ := Nat.exists_most_significant_bit hb
    have ht := Nat.testBit_lor a b k
    rw [h] at ht
    simp [hk] at ht

/-- C6: triangle setup classifies each vertex against the six frustum planes
(`x = ±w`, `y = ±w`, `z ∈ [0, w]`) as a bitmask that is zero exactly when
the vertex is inside the frustum; when the bitwise AND of the three masks is
nonzero the triangle is discarded with no output, and when the bitwise OR is
zero the triangle is passed unmodified — a single unclipped triangle — to
`enqueueTriangle`. -/
theorem setUpTriangle_mask_dispatch (v0 v1 v2 : Vec4) :
    (∀ v : Vec4, outcodeMask v = 0 ↔ insideFrustum v) ∧
      (outcodeMask v0 &&& outcodeMask v1 &&& outcodeMask v2 ≠ 0 →
        setUpTriangleClip v0 v1 v2 = []) ∧
      (outcodeMask v0 ||| outcodeMask v1 ||| outcodeMask v2 = 0 →
        setUpTriangleClip v0 v1 v2 = [(v0, v1, v2)]) := by
  refine ⟨outcodeMask_eq_zero_iff, fun hand => ?_, fun hor => ?_⟩
  · simp [setUpTriangleClip, hand]
  · obtain ⟨h01, h2⟩ := nat_lor_eq_zero hor
    obtain ⟨h0, h1⟩ := nat_lor_eq_zero h01
    simp [setUpTriangleClip, h0, h1, h2]

/-- Witness for the triangle-setup dispatch: a triangle with all three
vertices beyond the `x = w` plane (masks `1,1,1`, AND nonzero) is discarded,
and a triangle inside the frustum (masks `0,0,0`) passes through
unmodified. -/
theorem setUpTriangle_mask_dispatch_witness :
    setUpTriangleClip ⟨3, 0, 1, 2⟩ ⟨4, 1, 1, 2⟩ ⟨3, 1, 0, 2⟩ = [] ∧
      setUpTriangleClip ⟨0, 0, 1, 2⟩ ⟨1, 0, 1, 2⟩ ⟨0, 1, 1, 2⟩ =
        [(⟨0, 0, 1, 2⟩, ⟨1, 0, 1, 2⟩, ⟨0, 1, 1, 2⟩)] := by
  constructor
  · apply (setUpTriangle_mask_dispatch ⟨3, 0, 1, 2⟩ ⟨4, 1, 1, 2⟩ ⟨3, 1, 0, 2⟩).2.1
    have h1 : outcodeMask ⟨3, 0, 1, 2⟩ = 1 := by norm_num [outcodeMask]
    have h2 : outcodeMask ⟨4, 1, 1, 2⟩ = 1 := by norm_num [outcodeMask]
    have h3 : outcodeMask ⟨3, 1, 0, 2⟩ = 1 := by norm_num [outcodeMask]
    rw [h1, h2, h3]
    decide
  · apply (setUpTriangle_mask_dispatch ⟨0, 0, 1, 2⟩ ⟨1, 0, 1, 2⟩ ⟨0, 1, 1, 2⟩).2.2
    have h1 : outcodeMask ⟨0, 0, 1, 2⟩ = 0 := by norm_num [outcodeMask]
    have h2 : outcodeMask ⟨1, 0, 1, 2⟩ = 0 := by norm_num [outcodeMask]
    have h3 : outcodeMask ⟨0, 1, 1, 2⟩ = 0 := by norm_num [outcodeMask]
    rw [h1, h2, h3]
    decide

theorem sorted_perm_unique : ∀ (l₂ l₁ : List Triangle),
    l₁.Perm l₂ →
    List.Sorted (fun a tri => a.sequenceNumber ≤ tri.sequenceNumber) l₁ →
    List.Pairwise (fun a tri => a.sequenceNumber < tri.sequenceNumber) l₂ →
    l₁ = l₂
  | [], l₁, hp, _, _ => hp.eq_nil
  | b :: t₂, l₁, hp, hs, hlt => by
    cases l₁ with
    | nil =>
      exact absurd hp.symm.eq_nil (List.cons_ne_nil b t₂)
    | cons a t₁ =>
      have hab : a = b := by
        have ha2 : a ∈ b :: t₂ := hp.subset (List.mem_cons_self a t₁)
        have hb1 : b ∈ a :: t₁ := hp.symm.subset (List.mem_cons_self b t₂)
        rcases List.mem_cons.mp ha2 with h | h
        · exact h
        · have h1 : b.sequenceNumber < a.sequenceNumber :=
            (List.pairwise_cons.mp hlt).1 a h
          rcases List.mem_cons.mp hb1 with h2 | h2
          · exact h2.symm
          · have h3 : a.sequenceNumber ≤ b.sequenceNumber :=
              (List.sorted_cons.mp hs).1 b h2
            exact absurd h1 (not_lt.mpr h3)
      subst hab
      have hp2 : t₁.Perm t₂ := hp.cons_inv
      rw [sorted_perm_unique t₂ t₁ hp2 (List.sorted_cons.mp hs).2
        (List.pairwise_cons.mp hlt).2]

theorem enqueueTriangle_facts (fbWidth fbHeight : ℕ) (seq : ℤ) (cmd : ℕ)
    (tri : Vec4 × Vec4 × Vec4) (t : Triangle)
    (h : enqueueTriangle fbWidth fbHeight seq cmd tri = some t) :
    t.sequenceNumber = seq ∧
      0 < rastArea t.x0Rast t.y0Rast t.x1Rast t.y1Rast t.x2Rast t.y2Rast := by
  unfold enqueueTriangle at h
  simp only [] at h
  split_ifs at h with hA
  have ht := Option.some.inj h
  subst ht
  exact ⟨rfl, lt_of_not_le hA⟩

theorem enqueueAll_mem_facts (fbWidth fbHeight : ℕ) (cmd : ℕ) :
    ∀ (seq0 : ℤ) (l : List (Vec4 × Vec4 × Vec4)) (t : Triangle),
      t ∈ enqueueAll fbWidth fbHeight cmd seq0 l →
      (seq0 ≤ t.sequenceNumber ∧ t.sequenceNumber < seq0 + l.length ∧
        0 < rastArea t.x0Rast t.y0Rast t.x1Rast t.y1Rast t.x2Rast t.y2Rast)
  | seq0, [], t, ht => absurd ht (List.not_mem_nil t)
  | seq0, tri :: rest, t, ht => by
    rw [enqueueAll] at ht
    rcases heq : enqueueTriangle fbWidth fbHeight seq0 cmd tri with _ | tr
    · rw [heq] at ht
      have hf := enqueueAll_mem_facts fbWidth fbHeight cmd (seq0 + 1) rest t ht
      refine ⟨by omega, ?_, hf.2.2⟩
      have := hf.2.1
      simp only [List.length_cons]
      push_cast
      omega
    · rw [heq] at ht
      rcases List.mem_cons.mp ht with h | h
      · subst h
        have hf := enqueueTriangle_facts fbWidth fbHeight seq0 cmd tri t heq
        refine ⟨le_of_eq hf.1.symm, ?_, hf.2⟩
        rw [hf.1]
        simp only [List.length_cons]
        have hl : (0 : ℤ) ≤ rest.length := Int.ofNat_nonneg _
        push_cast
        omega
      · have hf := enqueueAll_mem_facts fbWidth fbHeight cmd (seq0 + 1) rest t h
        refine ⟨by omega, ?_, hf.2.2⟩
        have := hf.2.1
        simp only [List.length_cons]
        push_cast
        omega

theorem enqueueAll_pairwise (fbWidth fbHeight : ℕ) (cmd : ℕ) :
    ∀ (seq0 : ℤ) (l : List (Vec4 × Vec4 × Vec4)),
      List.Pairwise (fun a tri => a.sequenceNumber < tri.sequenceNumber)
        (enqueueAll fbWidth fbHeight cmd seq0 l)
  | _, [] => List.Pairwise.nil
  | seq0, tri :: rest => by
    rw [enqueueAll]
    rcases heq : enqueueTriangle fbWidth fbHeight seq0 cmd tri with _ | tr
    · exact enqueueAll_pairwise fbWidth fbHeight cmd (seq0 + 1) rest
    · refine List.pairwise_cons.mpr ⟨?_, enqueueAll_pairwise fbWidth fbHeight cmd (seq0 + 1) rest⟩
      intro t ht
      have hf := enqueueAll_mem_facts fbWidth fbHeight cmd (seq0 + 1) rest t ht
      have hseq := (enqueueTriangle_facts fbWidth fbHeight seq0 cmd tri tr heq).1
      rw [hseq]
      omega

theorem processQueue_mem_facts (fbWidth fbHeight : ℕ) (base : ℤ) :
    ∀ (queue : List DrawState) (dIdx : ℕ) (t : Triangle),
      t ∈ processQueue fbWidth fbHeight base dIdx queue →
      (base + (dIdx : ℤ) * (MAX_TRIS_PER_DRAW : ℤ) ≤ t.sequenceNumber ∧
        0 < rastArea t.x0Rast t.y0Rast t.x1Rast t.y1Rast t.x2Rast t.y2Rast)
  | [], _, t, ht => absurd ht (List.not_mem_nil t)
  | d :: rest, dIdx, t, ht => by
    rw [processQueue] at ht
    rcases List.mem_append.mp ht with h | h
    · have hf := enqueueAll_mem_facts fbWidth fbHeight dIdx
        (base + (dIdx : ℤ) * (MAX_TRIS_PER_DRAW : ℤ)) (setupOutputs d) t h
      exact ⟨hf.1, hf.2.2⟩
    · have hf := processQueue_mem_facts fbWidth fbHeight base rest (dIdx + 1) t h
      refine ⟨?_, hf.2⟩
      have h1 := hf.1
      simp only [MAX_TRIS_PER_DRAW] at *
      push_cast at *
      omega

theorem processQueue_pairwise (fbWidth fbHeight : ℕ) (base : ℤ) :
    ∀ (queue : List DrawState) (dIdx : ℕ),
      (∀ d ∈ queue, (setupOutputs d).length ≤ MAX_TRIS_PER_DRAW) →
      List.Pairwise (fun a tri => a.sequenceNumber < tri.sequenceNumber)
        (processQueue fbWidth fbHeight base dIdx queue)
  | [], _, _ => List.Pairwise.nil
  | d :: rest, dIdx, hcap => by
    rw [processQueue, List.pairwise_append]
    refine ⟨enqueueAll_pairwise fbWidth fbHeight dIdx _ _,
      processQueue_pairwise fbWidth fbHeight base rest (dIdx + 1)
        (fun d2 hd2 => hcap d2 (List.mem_cons_of_mem d hd2)), ?_⟩
    intro a ha b2 hb
    have hfa := enqueueAll_mem_facts fbWidth fbHeight dIdx
      (base + (dIdx : ℤ) * (MAX_TRIS_PER_DRAW : ℤ)) (setupOutputs d) a ha
    have hfb := processQueue_mem_facts fbWidth fbHeight base rest (dIdx + 1) b2 hb
    have hcapd := hcap d (List.mem_cons_self d rest)
    have h1 := hfa.2.1
    have h2 := hfb.1
    simp only [MAX_TRIS_PER_DRAW] at *
    push_cast at *
    omega

theorem edgeCovers_nonneg {axr ayr bxr byr cxr cyr : ℤ}
    (h : edgeCovers axr ayr bxr byr cxr cyr = true) :
    0 ≤ rastArea axr ayr bxr byr cxr cyr := by
  unfold edgeCovers at h
  simp only [Bool.or_eq_true, Bool.and_eq_true, decide_eq_true_eq] at h
  rcases h with h | ⟨h, _⟩
  · exact le_of_lt h
  · exact le_of_eq h.symm

theorem covers_nonneg (t : Triangle) (px py : ℕ) (h : covers t px py = true) :
    0 ≤ rastArea t.x0Rast t.y0Rast t.x1Rast t.y1Rast (pixelCenter px) (pixelCenter py) ∧
    0 ≤ rastArea t.x1Rast t.y1Rast t.x2Rast t.y2Rast (pixelCenter px) (pixelCenter py) ∧
    0 ≤ rastArea t.x2Rast t.y2Rast t.x0Rast t.y0Rast (pixelCenter px) (pixelCenter py) := by
  unfold covers at h
  simp only [Bool.and_eq_true] at h
  exact ⟨edgeCovers_nonneg h.1.1, edgeCovers_nonneg h.1.2, edgeCovers_nonneg h.2⟩

theorem bary_lower_bound (e0 e1 e2 q0 q1 q2 c m A : ℤ)
    (he0 : 0 ≤ e0) (he1 : 0 ≤ e1) (he2 : 0 ≤ e2)
    (hm0 : m ≤ q0) (hm1 : m ≤ q1) (hm2 : m ≤ q2)
    (hsum : e0 + e1 + e2 = A)
    (hc : A * c = e0 * q0 + e1 * q1 + e2 * q2)
    (hA : 0 < A) : m ≤ c := by
  by_contra hlt
  push_neg at hlt
  have h1 : A * m ≤ A * c := by
    calc A * m = e0 * m + e1 * m + e2 * m := by rw [← hsum]; ring
      _ ≤ e0 * q0 + e1 * q1 + e2 * q2 := by
          have g0 := mul_le_mul_of_nonneg_left hm0 he0
          have g1 := mul_le_mul_of_nonneg_left hm1 he1
          have g2 := mul_le_mul_of_nonneg_left hm2 he2
          linarith
      _ = A * c := hc.symm
  have h2 : A * c < A * m := mul_lt_mul_of_pos_left hlt hA
  linarith

theorem bary_upper_bound (e0 e1 e2 q0 q1 q2 c m A : ℤ)
    (he0 : 0 ≤ e0) (he1 : 0 ≤ e1) (he2 : 0 ≤ e2)
    (hm0 : q0 ≤ m) (hm1 : q1 ≤ m) (hm2 : q2 ≤ m)
    (hsum : e0 + e1 + e2 = A)
    (hc : A * c = e0 * q0 + e1 * q1 + e2 * q2)
    (hA : 0 < A) : c ≤ m := by
  by_contra hlt
  push_neg at hlt
  have h1 : A * c ≤ A * m := by
    calc A * c = e0 * q0 + e1 * q1 + e2 * q2 := hc
      _ ≤ e0 * m + e1 * m + e2 * m := by
          have g0 := mul_le_mul_of_nonneg_left hm0 he0
          have g1 := mul_le_mul_of_nonneg_left hm1 he1
          have g2 := mul_le_mul_of_nonneg_left hm2 he2
          linarith
      _ = A * m := by rw [← hsum]; ring
  have h2 : A * m < A * c := mul_lt_mul_of_pos_left hlt hA
  linarith

theorem covered_in_bbox (t : Triangle) (px py : ℕ)
    (harea : 0 < rastArea t.x0Rast t.y0Rast t.x1Rast t.y1Rast t.x2Rast t.y2Rast)
    (hcov : covers t px py = true) :
    triMinX t ≤ pixelCenter px ∧ pixelCenter px ≤ triMaxX t ∧
      triMinY t ≤ pixelCenter py ∧ pixelCenter py ≤ triMaxY t := by
  obtain ⟨h01, h12, h20⟩ := covers_nonneg t px py hcov
  have hsum : rastArea t.x1Rast t.y1Rast t.x2Rast t.y2Rast (pixelCenter px) (pixelCenter py) +
      rastArea t.x2Rast t.y2Rast t.x0Rast t.y0Rast (pixelCenter px) (pixelCenter py) +
      rastArea t.x0Rast t.y0Rast t.x1Rast t.y1Rast (pixelCenter px) (pixelCenter py) =
      rastArea t.x0Rast t.y0Rast t.x1Rast t.y1Rast t.x2Rast t.y2Rast := by
    unfold rastArea
    ring
  have hbx : rastArea t.x0Rast t.y0Rast t.x1Rast t.y1Rast t.x2Rast t.y2Rast * pixelCenter px =
      rastArea t.x1Rast t.y1Rast t.x2Rast t.y2Rast (pixelCenter px) (pixelCenter py) * t.x0Rast +
      rastArea t.x2Rast t.y2Rast t.x0Rast t.y0Rast (pixelCenter px) (pixelCenter py) * t.x1Rast +
      rastArea t.x0Rast t.y0Rast t.x1Rast t.y1Rast (pixelCenter px) (pixelCenter py) * t.x2Rast := by
    unfold rastArea
    ring
  have hby : rastArea t.x0Rast t.y0Rast t.x1Rast t.y1Rast t.x2Rast t.y2Rast * pixelCenter py =
      rastArea t.x1Rast t.y1Rast t.x2Rast t.y2Rast (pixelCenter px) (pixelCenter py) * t.y0Rast +
      rastArea t.x2Rast t.y2Rast t.x0Rast t.y0Rast (pixelCenter px) (pixelCenter py) * t.y1Rast +
      rastArea t.x0Rast t.y0Rast t.x1Rast t.y1Rast (pixelCenter px) (pixelCenter py) * t.y2Rast := by
    unfold rastArea
    ring
  refine ⟨?_, ?_, ?_, ?_⟩
  · exact bary_lower_bound _ _ _ _ _ _ _ _ _ h12 h20 h01
      (min_le_left _ _) (le_trans (min_le_right _ _) (min_le_left _ _))
      (le_trans (min_le_right _ _) (min_le_right _ _)) hsum hbx harea
  · exact bary_upper_bound _ _ _ _ _ _ _ _ _ h12 h20 h01
      (le_max_left _ _) (le_trans (le_max_left _ _) (le_max_right _ _))
      (le_trans (le_max_right _ _) (le_max_right _ _)) hsum hbx harea
  · exact bary_lower_bound _ _ _ _ _ _ _ _ _ h12 h20 h01
      (min_le_left _ _) (le_trans (min_le_right _ _) (min_le_left _ _))
      (le_trans (min_le_right _ _) (min_le_right _ _)) hsum hby harea
  · exact bary_upper_bound _ _ _ _ _ _ _ _ _ h12 h20 h01
      (le_max_left _ _) (le_trans (le_max_left _ _) (le_max_right _ _))
      (le_trans (le_max_right _ _) (le_max_right _ _)) hsum hby harea

theorem covered_tile_intersects (t : Triangle) (px py : ℕ)
    (harea : 0 < rastArea t.x0Rast t.y0Rast t.x1Rast t.y1Rast t.x2Rast t.y2Rast)
    (hcov : covers t px py = true) :
    aabbIntersectsTile t (px / TILE_SIZE) (py / TILE_SIZE) = true := by
  obtain ⟨hx1, hx2, hy1, hy2⟩ := covered_in_bbox t px py harea hcov
  have hcx1 : ((px / TILE_SIZE : ℕ) : ℤ) * TILE_RAST ≤ pixelCenter px := by
    simp only [pixelCenter, TILE_RAST, TILE_SIZE]
    omega
  have hcx2 : pixelCenter px < (((px / TILE_SIZE : ℕ) : ℤ) + 1) * TILE_RAST := by
    simp only [pixelCenter, TILE_RAST, TILE_SIZE]
    omega
  have hcy1 : ((py / TILE_SIZE : ℕ) : ℤ) * TILE_RAST ≤ pixelCenter py := by
    simp only [pixelCenter, TILE_RAST, TILE_SIZE]
    omega
  have hcy2 : pixelCenter py < (((py / TILE_SIZE : ℕ) : ℤ) + 1) * TILE_RAST := by
    simp only [pixelCenter, TILE_RAST, TILE_SIZE]
    omega
  unfold aabbIntersectsTile
  simp only [Bool.and_eq_true, decide_eq_true_eq]
  exact ⟨⟨⟨by omega, by omega⟩, by omega⟩, by omega⟩

theorem foldl_filter_eq {S : Type} (step : S → Triangle → S) (px py : ℕ)
    (Q : Triangle → Bool) :
    ∀ (l : List Triangle) (acc : S),
      (∀ t ∈ l, covers t px py = true → Q t = true) →
      (l.filter Q).foldl (shadeStep step px py) acc =
        l.foldl (shadeStep step px py) acc
  | [], _, _ => rfl
  | hd :: tl, acc, h => by
    have htl : ∀ t ∈ tl, covers t px py = true → Q t = true :=
      fun t ht => h t (List.mem_cons_of_mem hd ht)
    rcases hq : Q hd with _ | _
    · have hnc : covers hd px py = false := by
        rcases hcv : covers hd px py with _ | _
        · rfl
        · have := h hd (List.mem_cons_self hd tl) hcv
          rw [hq] at this
          exact absurd this (by simp)
      rw [List.filter_cons_of_neg (by simp [hq]), List.foldl_cons]
      have hskip : shadeStep step px py acc hd = acc := by simp [shadeStep, hnc]
      rw [hskip]
      exact foldl_filter_eq step px py Q tl acc htl
    · rw [List.filter_cons_of_pos hq, List.foldl_cons, List.foldl_cons]
      exact foldl_filter_eq step px py Q tl _ htl

theorem sortTileList_eq (l target : List Triangle)
    (hperm : l.Perm target)
    (htarget : List.Pairwise (fun a tri => a.sequenceNumber < tri.sequenceNumber) target) :
    sortTileList l = target := by
  letI : IsTotal Triangle (fun a tri => a.sequenceNumber ≤ tri.sequenceNumber) :=
    ⟨fun a tri => le_total _ _⟩
  letI : IsTrans Triangle (fun a tri => a.sequenceNumber ≤ tri.sequenceNumber) :=
    ⟨fun _ _ _ h1 h2 => le_trans h1 h2⟩
  exact sorted_perm_unique target (sortTileList l)
    ((List.perm_insertionSort _ l).trans hperm)
    (List.sorted_insertionSort _ l) htarget

/-- C1: for every draw queue and every deterministic per-pixel pipeline
(`step` folds pixel shading, Z test and blend over an abstract per-pixel
state), the parallel four-pass pipeline — vertex shading, triangle
setup/clipping/binning, per-tile sort and fill, resolve — produces at every
pixel exactly the value of the serial renderer that walks all triangles in
submission order with no tile binning.  The tile bins `bins` may hold each
tile's triangles (those whose raster AABB intersects the tile) in any order,
modelling the nondeterministic interleaving of the concurrent pass-2
appends; the per-tile sort by sequence number restores submission order.
The capacity hypothesis is the spec's naming contract that a draw emits at
most `MAX_TRIS_PER_DRAW` triangles. -/
theorem finish_parallel_eq_serial {S : Type} (step : S → Triangle → S) (init : S)
    (fbWidth fbHeight : ℕ) (base : ℤ) (queue : List DrawState)
    (bins : ℕ × ℕ → List Triangle)
    (hbins : ∀ tileCol tileRow : ℕ,
      (bins (tileCol, tileRow)).Perm
        ((allTriangles fbWidth fbHeight base queue).filter
          (fun t => aabbIntersectsTile t tileCol tileRow)))
    (hcap : ∀ d ∈ queue, (setupOutputs d).length ≤ MAX_TRIS_PER_DRAW)
    (px py : ℕ) :
    parallelRenderPixel step init bins px py =
      serialRenderPixel step init fbWidth fbHeight base queue px py := by
  have hpw := processQueue_pairwise fbWidth fbHeight base queue 0 hcap
  have hfpw : List.Pairwise (fun a tri => a.sequenceNumber < tri.sequenceNumber)
      ((allTriangles fbWidth fbHeight base queue).filter
        (fun t => aabbIntersectsTile t (px / TILE_SIZE) (py / TILE_SIZE))) :=
    List.Pairwise.filter _ hpw
  unfold parallelRenderPixel serialRenderPixel
  rw [sortTileList_eq _ _ (hbins (px / TILE_SIZE) (py / TILE_SIZE)) hfpw]
  apply foldl_filter_eq
  intro t ht hc
  have hf := processQueue_mem_facts fbWidth fbHeight base queue 0 t ht
  exact covered_tile_intersects t px py hf.2 hc

/-- Witness for the order-equivalence theorem, instantiated with a concrete
scene, a counting pixel pipeline, and bins that hold exactly the
spec-mandated triangles. -/
theorem finish_parallel_eq_serial_witness :
    parallelRenderPixel (fun (acc : ℕ) _ => acc + 1) 0
        (fun tile => (allTriangles 256 256 0 [emptyIndexDraw]).filter
          (fun t => aabbIntersectsTile t tile.1 tile.2)) 3 5 =
      serialRenderPixel (fun (acc : ℕ) _ => acc + 1) 0 256 256 0 [emptyIndexDraw] 3 5 := by
  apply finish_parallel_eq_serial
  · intro tileCol tileRow
    exact List.Perm.refl _
  · intro d hd
    have hde : d = emptyIndexDraw := by simpa using hd
    subst hde
    have hz : setupOutputs emptyIndexDraw = [] := rfl
    rw [hz]
    simp [MAX_TRIS_PER_DRAW]

end librender
